import Mathlib

set_option maxHeartbeats 1000000

/-!
Verification of the ObscureBase repository: a shallow embedding of the
`EncryptedDocumentVault` ledger contract and of the client-side symmetric
envelope (`src/utils/crypto.ts`), together with proofs of the spec's claims.
-/

namespace ObscureBase

/-! ## SymmetricEnvelope (src/utils/crypto.ts)

The envelope code calls platform primitives (`TextEncoder`/`TextDecoder`,
`crypto.subtle.digest`, AES-GCM `encrypt`/`decrypt`, `btoa`/`atob`).  These are
external to the repository, so they are modelled as a bundle of abstract
functions together with the contracts the platform guarantees: text
encode/decode round-trips, base64 round-trips (with `atob` failing on
non-base64 input), and the authenticated cipher both round-tripping and
accepting only ciphertexts genuinely produced under the same key and nonce
(the ideal-AEAD reading of GCM authentication). -/

/-- A byte of an off-chain buffer (`Uint8Array` cell). -/
abbrev Byte := Nat

/-- Platform primitives consumed by `crypto.ts`, with their guarantees. -/
structure EnvelopePrims where
  encode : String → List Byte
  decode : List Byte → String
  digest : String → List Byte
  aeadEnc : List Byte → List Byte → List Byte → List Byte
  aeadDec : List Byte → List Byte → List Byte → Option (List Byte)
  btoa : List Byte → String
  atob : String → Option (List Byte)
  decode_encode : ∀ s, decode (encode s) = s
  atob_btoa : ∀ b, atob (btoa b) = some b
  btoa_ne_empty : ∀ b, b ≠ [] → btoa b ≠ ""
  aeadDec_enc : ∀ k iv p, aeadDec k iv (aeadEnc k iv p) = some p
  aeadDec_auth : ∀ k iv c p, aeadDec k iv c = some p → c = aeadEnc k iv p

/-- Failure kind of the client-side envelope (§7 of the spec). -/
inductive CryptoError
  | DecryptionFailed
  deriving DecidableEq, Repr

/-- `deriveKey` from crypto.ts: lowercase the secret, hash it, use the raw
hash as the symmetric key. -/
def deriveKey (P : EnvelopePrims) (addressKey : String) : List Byte :=
  P.digest addressKey.toLower

/-- `encryptBodyWithKey` from crypto.ts.  The fresh random 12-byte nonce drawn
by `crypto.getRandomValues` is passed in as the `iv` argument. -/
def encryptBodyWithKey (P : EnvelopePrims) (iv : List Byte) (body addressKey : String) :
    String :=
  if body.length = 0 then ""
  else
    let key := deriveKey P addressKey
    let cipherBuffer := P.aeadEnc key iv (P.encode body)
    P.btoa (iv ++ cipherBuffer)

/-- `decryptBodyWithKey` from crypto.ts: empty payload decodes to the empty
body; otherwise base64-decode, split nonce and ciphertext at byte 12, derive
the key and authenticate-decrypt.  Any platform throw (bad base64, failed
authentication) is the `DecryptionFailed` outcome. -/
def decryptBodyWithKey (P : EnvelopePrims) (payload addressKey : String) :
    Except CryptoError String :=
  if payload = "" then .ok ""
  else
    match P.atob payload with
    | none => .error .DecryptionFailed
    | some raw =>
        let iv := raw.take 12
        let cipher := raw.drop 12
        let key := deriveKey P addressKey
        match P.aeadDec key iv cipher with
        | none => .error .DecryptionFailed
        | some decrypted => .ok (P.decode decrypted)

/-! ### A concrete instance of the platform primitives

Used to evaluate the envelope theorems on explicit inputs.  The functions are
simple executable stand-ins satisfying exactly the contracts stated in
`EnvelopePrims`. -/

/-- Concrete text encoder: one byte per character code. -/
def encodeBytes (s : String) : List Byte := s.data.map Char.toNat

/-- Concrete text decoder, inverse of `encodeBytes`. -/
def decodeBytes (l : List Byte) : String := String.mk (l.map Char.ofNat)

/-- Unary chunk representing one byte inside a concrete base64-like string. -/
def natToChunk (n : Nat) : List Char := List.replicate n 'a' ++ ['b']

/-- Concrete `btoa`: concatenate the unary chunks of all bytes. -/
def bytesToStr (b : List Byte) : String := String.mk (b.map natToChunk).flatten

/-- Chunk parser for `strToBytes`; `n` counts the letters of the chunk read
so far. -/
def parseChunks : List Char → Nat → Option (List Byte)
  | [], _ => none
  | c :: rest, n =>
    if c = 'a' then parseChunks rest (n + 1)
    else if c = 'b' then
      match rest with
      | [] => some [n]
      | _ :: _ => (parseChunks rest 0).map (n :: ·)
    else none

/-- Concrete `atob`, inverse of `bytesToStr`; fails on malformed input. -/
def strToBytes (s : String) : Option (List Byte) :=
  match s.data with
  | [] => some []
  | c :: rest => parseChunks (c :: rest) 0

/-- Concrete ideal authenticated cipher: the ciphertext carries key, nonce and
plaintext, so decryption can check authenticity exactly. -/
def concatEnc (key iv p : List Byte) : List Byte := key ++ iv ++ p

/-- Decryption for `concatEnc`: succeeds only on genuine ciphertexts. -/
def concatDec (key iv c : List Byte) : Option (List Byte) :=
  if c.take (key.length + iv.length) = key ++ iv then
    some (c.drop (key.length + iv.length))
  else none

/-- A concrete `EnvelopePrims` satisfying all the platform contracts. -/
def modelPrims : EnvelopePrims where
  encode := encodeBytes
  decode := decodeBytes
  digest := encodeBytes
  aeadEnc := concatEnc
  aeadDec := concatDec
  btoa := bytesToStr
  atob := strToBytes
  decode_encode := by
    intro s
    cases s with
    | mk data => simp [decodeBytes, encodeBytes, List.map_map, Function.comp_def]
  atob_btoa := by
    have hrep : ∀ (k : Nat) (rest : List Char) (n : Nat),
        parseChunks (List.replicate k 'a' ++ rest) n = parseChunks rest (n + k) := by
      intro k
      induction k with
      | zero => simp
      | succ k ih =>
          intro rest n
          rw [List.replicate_succ, List.cons_append]
          show parseChunks (List.replicate k 'a' ++ rest) (n + 1) = _
          rw [ih]
          congr 1
          omega
    have hchunk : ∀ (t : List Byte) (n : Nat),
        parseChunks ('b' :: (t.map natToChunk).flatten) n = some (n :: t) := by
      intro t
      induction t with
      | nil => simp [parseChunks]
      | cons m t' ih =>
          intro n
          have hflat : ((m :: t').map natToChunk).flatten
              = List.replicate m 'a' ++ ('b' :: (t'.map natToChunk).flatten) := by
            rw [List.map_cons, List.flatten_cons, natToChunk, List.append_assoc,
              List.singleton_append]
          rw [hflat]
          cases m with
          | zero =>
              show parseChunks ('b' :: ('b' :: (t'.map natToChunk).flatten)) n = _
              rw [show parseChunks ('b' :: ('b' :: (t'.map natToChunk).flatten)) n
                  = (parseChunks ('b' :: (t'.map natToChunk).flatten) 0).map (n :: ·)
                  from by simp [parseChunks]]
              rw [ih]
              rfl
          | succ m' =>
              rw [List.replicate_succ, List.cons_append]
              rw [show parseChunks
                    ('b' :: ('a' :: (List.replicate m' 'a'
                      ++ ('b' :: (t'.map natToChunk).flatten)))) n
                  = (parseChunks ('a' :: (List.replicate m' 'a'
                      ++ ('b' :: (t'.map natToChunk).flatten))) 0).map (n :: ·)
                  from by simp [parseChunks]]
              rw [show parseChunks ('a' :: (List.replicate m' 'a'
                      ++ ('b' :: (t'.map natToChunk).flatten))) 0
                  = parseChunks (List.replicate m' 'a'
                      ++ ('b' :: (t'.map natToChunk).flatten)) 1 from by
                simp [parseChunks]]
              rw [hrep, ih]
              simp [Nat.add_comm]
    intro b
    cases b with
    | nil => rfl
    | cons n t =>
        have hflat : ((n :: t).map natToChunk).flatten
            = List.replicate n 'a' ++ ('b' :: (t.map natToChunk).flatten) := by
          rw [List.map_cons, List.flatten_cons, natToChunk, List.append_assoc,
            List.singleton_append]
        cases hr : List.replicate n 'a' with
        | nil =>
            have hn : n = 0 := by
              have := congrArg List.length hr
              simpa using this
            subst hn
            simp only [bytesToStr, strToBytes, hflat, hr, List.nil_append]
            rw [hchunk]
        | cons c cs =>
            have hc : c = 'a' := by
              have : c ∈ List.replicate n 'a' := by
                rw [hr]
                exact List.mem_cons_self c cs
              exact List.eq_of_mem_replicate this
            subst hc
            simp only [bytesToStr, strToBytes, hflat, hr, List.cons_append]
            rw [← List.cons_append, ← hr, hrep, Nat.zero_add, hchunk]
  btoa_ne_empty := by
    intro b hb
    cases b with
    | nil => exact absurd rfl hb
    | cons n t =>
        intro h
        have hdata := congrArg String.data h
        rw [show ("" : String).data = [] from rfl] at hdata
        simp [bytesToStr] at hdata
        exact absurd hdata.1 (by simp [natToChunk])
  aeadDec_enc := by
    intro k iv p
    unfold concatDec concatEnc
    rw [@List.take_left' _ (k ++ iv) p (k.length + iv.length) (by simp),
      @List.drop_left' _ (k ++ iv) p (k.length + iv.length) (by simp)]
    simp
  aeadDec_auth := by
    intro k iv c p h
    unfold concatDec at h
    split at h
    · next heq =>
        have hp := Option.some.inj h
        subst hp
        conv_lhs => rw [← List.take_append_drop (k.length + iv.length) c]
        rw [heq]
        rfl
    · cases h

/-! ## DocumentRegistry and ConfidentialKeyGateway
(`EncryptedDocumentVault` contract, src/components/Header.tsx)

Shallow embedding of the Solidity contract.  Principals (addresses) are `Nat`
with `0` the null address.  The FHE access-control engine's persistent ACL is
carried explicitly: `allowed h a` says principal `a` holds decrypt permission
on the encrypted key handle `h` (`FHE.allow` / `FHE.isSenderAllowed`), and
`allowedThis h` records `FHE.allowThis`.  Ledger environment data read by the
contract (`msg.sender`, `block.timestamp`, `block.number`) comes in as a `Tx`.
`FHE.fromExternal`'s proof verification is modelled by the `proofValid` flag of
the external ciphertext; an invalid proof reverts the transaction
(`ProofInvalid`).  Events accumulate in an append-only log.  A `require`
failure reverts the whole transaction, which the embedding renders as
`Except.error` with no successor state. -/

/-- Transaction environment visible to the contract. -/
structure Tx where
  sender : Nat
  timestamp : Nat
  blockNumber : Nat
  deriving DecidableEq, Repr

/-- The `Document` struct of the contract. -/
structure Document where
  owner : Nat
  name : String
  encryptedBody : String
  accessKey : Nat
  createdAt : Nat
  updatedAt : Nat
  lastEditorBlock : Nat
  deriving DecidableEq, Repr

/-- Solidity zero value of `Document`: what `_documents[id]` returns for an
id that was never assigned. -/
def emptyDocument : Document :=
  { owner := 0, name := "", encryptedBody := "", accessKey := 0,
    createdAt := 0, updatedAt := 0, lastEditorBlock := 0 }

/-- Events emitted by the contract. -/
inductive VaultEvent
  | DocumentCreated (documentId owner : Nat) (name : String)
  | DocumentUpdated (documentId editor : Nat) (encryptedBody : String)
  | AccessGranted (documentId grantee : Nat)
  deriving DecidableEq, Repr

/-- Revert reasons of the contract (§7 error taxonomy, ledger side). -/
inductive VaultError
  | NameRequired
  | ProofInvalid
  | NotFound
  | Unauthorized
  | InvalidGrantee
  deriving DecidableEq, Repr

/-- Full contract state plus the FHE engine's ACL and the event log. -/
structure Vault where
  nextId : Nat
  documents : Nat → Document
  ownedDocuments : Nat → List Nat
  sharedDocuments : Nat → List Nat
  isSharedWith : Nat → Nat → Bool
  allowed : Nat → Nat → Bool
  allowedThis : Nat → Bool
  events : List VaultEvent

/-- Deployment state: `_nextId = 1`, empty mappings, empty ACL. -/
def initialVault : Vault where
  nextId := 1
  documents := fun _ => emptyDocument
  ownedDocuments := fun _ => []
  sharedDocuments := fun _ => []
  isSharedWith := fun _ _ => false
  allowed := fun _ _ => false
  allowedThis := fun _ => false
  events := []

/-- `createDocument`: requires a non-empty name, validates the external
encrypted access key (`FHE.fromExternal`), allocates `_nextId++`, stores the
record, appends to the owner index, grants the contract and the creator
decrypt permission, and emits `DocumentCreated`. -/
def createDocument (s : Vault) (tx : Tx) (name encryptedBody : String)
    (encryptedAccessKey : Nat) (proofValid : Bool) :
    Except VaultError (Vault × Nat) :=
  if name = "" then .error .NameRequired
  else if proofValid = false then .error .ProofInvalid
  else
    let validatedKey := encryptedAccessKey
    let documentId := s.nextId
    let doc : Document :=
      { owner := tx.sender, name := name, encryptedBody := encryptedBody,
        accessKey := validatedKey, createdAt := tx.timestamp,
        updatedAt := tx.timestamp, lastEditorBlock := tx.blockNumber }
    .ok ({ s with
        nextId := s.nextId + 1,
        documents := fun i => if i = documentId then doc else s.documents i,
        ownedDocuments := fun a =>
          if a = tx.sender then s.ownedDocuments tx.sender ++ [documentId]
          else s.ownedDocuments a,
        allowedThis := fun h => if h = validatedKey then true else s.allowedThis h,
        allowed := fun h a =>
          if h = validatedKey ∧ a = tx.sender then true else s.allowed h a,
        events := s.events ++ [.DocumentCreated documentId tx.sender name] },
      documentId)

/-- `updateDocumentBody`: `_getDocument` (revert `NotFound` when the owner is
the null address) then `_requireAccess` (`FHE.isSenderAllowed`, revert
`Unauthorized`); on success replace the body, stamp `updatedAt` and
`lastEditorBlock` from the ledger environment and emit `DocumentUpdated`. -/
def updateDocumentBody (s : Vault) (tx : Tx) (documentId : Nat)
    (newEncryptedBody : String) : Except VaultError Vault :=
  let doc := s.documents documentId
  if doc.owner = 0 then .error .NotFound
  else if s.allowed doc.accessKey tx.sender then
    .ok { s with
      documents := fun i =>
        if i = documentId then
          { doc with
            encryptedBody := newEncryptedBody
            updatedAt := tx.timestamp
            lastEditorBlock := tx.blockNumber }
        else s.documents i,
      events := s.events ++ [.DocumentUpdated documentId tx.sender newEncryptedBody] }
  else .error .Unauthorized

/-- `grantAccess`: requires a non-null grantee first, then an existing
document, then caller permission; records the share (deduplicated by
`_isSharedWith`), always re-grants engine permission (`FHE.allow`), and emits
`AccessGranted`. -/
def grantAccess (s : Vault) (tx : Tx) (documentId grantee : Nat) :
    Except VaultError Vault :=
  if grantee = 0 then .error .InvalidGrantee
  else
    let doc := s.documents documentId
    if doc.owner = 0 then .error .NotFound
    else if s.allowed doc.accessKey tx.sender then
      let s₁ :=
        if s.isSharedWith documentId grantee then s
        else
          { s with
            isSharedWith := fun i a =>
              if i = documentId ∧ a = grantee then true else s.isSharedWith i a,
            sharedDocuments := fun a =>
              if a = grantee then s.sharedDocuments grantee ++ [documentId]
              else s.sharedDocuments a }
      .ok { s₁ with
        allowed := fun h a =>
          if h = doc.accessKey ∧ a = grantee then true else s₁.allowed h a,
        events := s₁.events ++ [.AccessGranted documentId grantee] }
    else .error .Unauthorized

/-- `getDocument` view: reverts `NotFound` on an unassigned id. -/
def getDocument (s : Vault) (documentId : Nat) : Except VaultError Document :=
  if (s.documents documentId).owner = 0 then .error .NotFound
  else .ok (s.documents documentId)

/-- `getOwnedDocumentIds` view. -/
def getOwnedDocumentIds (s : Vault) (owner : Nat) : List Nat :=
  s.ownedDocuments owner

/-- `getSharedDocumentIds` view. -/
def getSharedDocumentIds (s : Vault) (user : Nat) : List Nat :=
  s.sharedDocuments user

/-- `documentExists` view: the owner field is a non-null address. -/
def documentExists (s : Vault) (documentId : Nat) : Bool :=
  (s.documents documentId).owner != 0

/-- `totalDocuments` view: `_nextId - 1`. -/
def totalDocuments (s : Vault) : Nat :=
  s.nextId - 1

/-- One ledger transaction against the contract. -/
inductive VaultOp
  | create (tx : Tx) (name encryptedBody : String) (encryptedAccessKey : Nat)
      (proofValid : Bool)
  | update (tx : Tx) (documentId : Nat) (newEncryptedBody : String)
  | grant (tx : Tx) (documentId grantee : Nat)
  deriving DecidableEq, Repr

/-- Apply one transaction: a revert leaves the state untouched; a successful
create also reports the fresh document id. -/
def stepVault (s : Vault) : VaultOp → Vault × Option Nat
  | .create tx name body key pv =>
      match createDocument s tx name body key pv with
      | .ok (s', documentId) => (s', some documentId)
      | .error _ => (s, none)
  | .update tx documentId nb =>
      match updateDocumentBody s tx documentId nb with
      | .ok s' => (s', none)
      | .error _ => (s, none)
  | .grant tx documentId g =>
      match grantAccess s tx documentId g with
      | .ok s' => (s', none)
      | .error _ => (s, none)

/-- Run a sequence of transactions. -/
def runVault (s : Vault) : List VaultOp → Vault
  | [] => s
  | op :: rest => runVault (stepVault s op).1 rest

/-- The ids returned by the successful creations of a run, in order. -/
def createdIds (s : Vault) : List VaultOp → List Nat
  | [] => []
  | op :: rest =>
      match (stepVault s op).2 with
      | some documentId => documentId :: createdIds (stepVault s op).1 rest
      | none => createdIds (stepVault s op).1 rest

/-- Whether a transaction is a creation that passes the argument checks
(non-empty name, valid capability proof); such creations are exactly the
successful ones, from any state. -/
def createSucceeds : VaultOp → Bool
  | .create _ name _ _ proofValid => (name != "") && proofValid
  | _ => false

/-- The document id an operation would rewrite, if any (only body updates
rewrite a document record). -/
def updateTarget : VaultOp → Option Nat
  | .update _ documentId _ => some documentId
  | _ => none

/-! ### Concrete states used to evaluate the theorems -/

/-- A concrete document: owner `7`, key handle `42`. -/
def sampleDocument : Document :=
  { owner := 7, name := "doc", encryptedBody := "", accessKey := 42,
    createdAt := 0, updatedAt := 0, lastEditorBlock := 0 }

/-- A concrete reachable-shaped state: one document with id `1`, owned by
principal `7`; principals `7` and `5` hold decrypt permission on handle `42`. -/
def sampleVault : Vault where
  nextId := 2
  documents := fun i => if i = 1 then sampleDocument else emptyDocument
  ownedDocuments := fun a => if a = 7 then [1] else []
  sharedDocuments := fun _ => []
  isSharedWith := fun _ _ => false
  allowed := fun h a => decide (h = 42 ∧ (a = 7 ∨ a = 5))
  allowedThis := fun h => decide (h = 42)
  events := []

/-! ## Theorems -/

theorem string_length_eq_zero_iff (s : String) : s.length = 0 ↔ s = "" := by
  cases s with
  | mk data =>
      cases data with
      | nil => simp
      | cons c cs =>
          constructor
          · intro h
            simp at h
          · intro h
            have hd := congrArg String.data h
            rw [show ("" : String).data = [] from rfl] at hd
            simp at hd

theorem envelope_roundtrip (P : EnvelopePrims) (iv : List Byte) (p k : String)
    (hiv : iv.length = 12) :
    decryptBodyWithKey P (encryptBodyWithKey P iv p k) k = .ok p := by
  by_cases hp : p = ""
  · subst hp
    simp [encryptBodyWithKey, decryptBodyWithKey]
  · have hlen : ¬ p.length = 0 := fun h => hp ((string_length_eq_zero_iff p).mp h)
    have hne : P.btoa (iv ++ P.aeadEnc (deriveKey P k) iv (P.encode p)) ≠ "" := by
      apply P.btoa_ne_empty
      intro hcon
      have := congrArg List.length hcon
      simp [hiv] at this
    simp only [encryptBodyWithKey, if_neg hlen]
    simp only [decryptBodyWithKey, if_neg hne, P.atob_btoa,
      @List.take_left' _ iv (P.aeadEnc (deriveKey P k) iv (P.encode p)) 12 hiv,
      @List.drop_left' _ iv (P.aeadEnc (deriveKey P k) iv (P.encode p)) 12 hiv,
      P.aeadDec_enc, P.decode_encode]

theorem encrypt_injective_iv (P : EnvelopePrims) (iv₁ iv₂ : List Byte) (p k : String)
    (h₁ : iv₁.length = 12) (h₂ : iv₂.length = 12) (hp : p ≠ "") (hne : iv₁ ≠ iv₂) :
    encryptBodyWithKey P iv₁ p k ≠ encryptBodyWithKey P iv₂ p k := by
  have hlen : ¬ p.length = 0 := fun h => hp ((string_length_eq_zero_iff p).mp h)
  simp only [encryptBodyWithKey, if_neg hlen]
  intro hcon
  have hb := congrArg P.atob hcon
  rw [P.atob_btoa, P.atob_btoa] at hb
  have hlists := Option.some.inj hb
  have htake := congrArg (List.take 12) hlists
  rw [@List.take_left' _ iv₁ (P.aeadEnc (deriveKey P k) iv₁ (P.encode p)) 12 h₁,
    @List.take_left' _ iv₂ (P.aeadEnc (deriveKey P k) iv₂ (P.encode p)) 12 h₂] at htake
  exact hne htake

/-- C2 (counterexample): the claim quantifies the freshness property over every
plaintext, but for the empty plaintext the code returns the empty payload
without drawing any nonce, so two encryptions of the same empty `(p, k)` with
distinct fresh nonces produce identical payloads. -/
theorem envelope_empty_plaintext_same_payload_cex :
    List.replicate 12 (0 : Byte) ≠ List.replicate 12 (1 : Byte) ∧
    (List.replicate 12 (0 : Byte)).length = 12 ∧
    (List.replicate 12 (1 : Byte)).length = 12 ∧
    encryptBodyWithKey modelPrims (List.replicate 12 (0 : Byte)) "" "k"
      = encryptBodyWithKey modelPrims (List.replicate 12 (1 : Byte)) "" "k" :=
  ⟨by decide, by decide, by decide, rfl⟩

/-- C2 (amended): for every plaintext `p` (including the empty string) and
every secret `k`, `decrypt(encrypt(p, k), k) = p` for any fresh 12-byte
nonce; and for non-empty `p`, two encryptions under distinct fresh nonces
yield different payloads that both decrypt back to `p`.  (For the empty
plaintext the code short-circuits to the empty payload, so the two payloads
coincide.) -/
theorem envelope_roundtrip_and_nonce_freshness (P : EnvelopePrims)
    (iv₁ iv₂ : List Byte) (p k : String)
    (h₁ : iv₁.length = 12) (h₂ : iv₂.length = 12) :
    decryptBodyWithKey P (encryptBodyWithKey P iv₁ p k) k = .ok p ∧
    decryptBodyWithKey P (encryptBodyWithKey P iv₂ p k) k = .ok p ∧
    (p ≠ "" → iv₁ ≠ iv₂ →
      encryptBodyWithKey P iv₁ p k ≠ encryptBodyWithKey P iv₂ p k) :=
  ⟨envelope_roundtrip P iv₁ p k h₁, envelope_roundtrip P iv₂ p k h₂,
    fun hp hne => encrypt_injective_iv P iv₁ iv₂ p k h₁ h₂ hp hne⟩

theorem envelope_roundtrip_and_nonce_freshness_witness :
    decryptBodyWithKey modelPrims
        (encryptBodyWithKey modelPrims (List.replicate 12 (0 : Byte)) "hi" "K") "K"
      = .ok "hi" ∧
    decryptBodyWithKey modelPrims
        (encryptBodyWithKey modelPrims (List.replicate 12 (1 : Byte)) "hi" "K") "K"
      = .ok "hi" ∧
    encryptBodyWithKey modelPrims (List.replicate 12 (0 : Byte)) "hi" "K"
      ≠ encryptBodyWithKey modelPrims (List.replicate 12 (1 : Byte)) "hi" "K" := by
  have h := envelope_roundtrip_and_nonce_freshness modelPrims
    (List.replicate 12 (0 : Byte)) (List.replicate 12 (1 : Byte)) "hi" "K"
    (by decide) (by decide)
  exact ⟨h.1, h.2.1, h.2.2 (by decide) (by decide)⟩

/-- C9: for a non-empty payload, decryption succeeds only when the payload is
an authentic envelope under the (lowercase-normalized, hashed) secret: the
base64 decoding must exist and its bytes past the 12-byte nonce must be
exactly the authenticated encryption, under the derived key and that nonce,
of the plaintext that is returned — so decryption never silently returns a
wrong plaintext; and any payload not of that authentic form (wrong key,
corrupted bytes, truncated or malformed input) fails with
`DecryptionFailed`. -/
theorem decrypt_only_authentic_payloads (P : EnvelopePrims) (payload k : String)
    (hne : payload ≠ "") :
    (∀ p, decryptBodyWithKey P payload k = .ok p →
        ∃ raw decrypted, P.atob payload = some raw ∧
          raw.drop 12 = P.aeadEnc (deriveKey P k) (raw.take 12) decrypted ∧
          p = P.decode decrypted) ∧
    ((¬ ∃ raw decrypted, P.atob payload = some raw ∧
          raw.drop 12 = P.aeadEnc (deriveKey P k) (raw.take 12) decrypted) →
        decryptBodyWithKey P payload k = .error .DecryptionFailed) := by
  unfold decryptBodyWithKey
  rw [if_neg hne]
  cases hatob : P.atob payload with
  | none =>
      constructor
      · intro p h
        cases h
      · intro _
        rfl
  | some raw =>
      cases hdec : P.aeadDec (deriveKey P k) (raw.take 12) (raw.drop 12) with
      | none =>
          constructor
          · intro p h
            simp [hdec] at h
          · intro _
            simp [hdec]
      | some decrypted =>
          constructor
          · intro p h
            simp only [hdec] at h
            refine ⟨raw, decrypted, rfl, P.aeadDec_auth _ _ _ _ hdec, ?_⟩
            exact (Except.ok.inj h).symm
          · intro hno
            exact absurd ⟨raw, decrypted, rfl, P.aeadDec_auth _ _ _ _ hdec⟩ hno

theorem decrypt_only_authentic_payloads_witness :
    decryptBodyWithKey modelPrims "z" "K" = .error .DecryptionFailed := by
  have hz : modelPrims.atob "z" = none := by decide
  refine (decrypt_only_authentic_payloads modelPrims "z" "K" (by decide)).2 ?_
  rintro ⟨raw, decrypted, h, _⟩
  rw [hz] at h
  cases h

theorem documentExists_true_iff (s : Vault) (documentId : Nat) :
    documentExists s documentId = true ↔ (s.documents documentId).owner ≠ 0 := by
  by_cases hx : (s.documents documentId).owner = 0 <;> simp [documentExists, hx]

theorem documentExists_false_iff (s : Vault) (documentId : Nat) :
    documentExists s documentId = false ↔ (s.documents documentId).owner = 0 := by
  by_cases hx : (s.documents documentId).owner = 0 <;> simp [documentExists, hx]

theorem updateDocumentBody_notFound (s : Vault) (tx : Tx) (documentId : Nat)
    (nb : String) (hex : (s.documents documentId).owner = 0) :
    updateDocumentBody s tx documentId nb = .error .NotFound := by
  simp [updateDocumentBody, hex]

theorem updateDocumentBody_unauthorized (s : Vault) (tx : Tx) (documentId : Nat)
    (nb : String) (hex : (s.documents documentId).owner ≠ 0)
    (ha : s.allowed (s.documents documentId).accessKey tx.sender = false) :
    updateDocumentBody s tx documentId nb = .error .Unauthorized := by
  simp [updateDocumentBody, hex, ha]

theorem updateDocumentBody_ok_of (s : Vault) (tx : Tx) (documentId : Nat)
    (nb : String) (hex : (s.documents documentId).owner ≠ 0)
    (ha : s.allowed (s.documents documentId).accessKey tx.sender = true) :
    ∃ s', updateDocumentBody s tx documentId nb = .ok s' := by
  simp only [updateDocumentBody]
  rw [if_neg hex, if_pos ha]
  exact ⟨_, rfl⟩

theorem updateDocumentBody_ok_inv {s : Vault} {tx : Tx} {documentId : Nat}
    {nb : String} {s' : Vault}
    (h : updateDocumentBody s tx documentId nb = .ok s') :
    s'.nextId = s.nextId ∧
    s'.ownedDocuments = s.ownedDocuments ∧
    s'.sharedDocuments = s.sharedDocuments ∧
    s'.isSharedWith = s.isSharedWith ∧
    s'.allowed = s.allowed ∧
    s'.allowedThis = s.allowedThis ∧
    s'.events = s.events ++ [.DocumentUpdated documentId tx.sender nb] ∧
    s'.documents documentId
      = { s.documents documentId with
          encryptedBody := nb
          updatedAt := tx.timestamp
          lastEditorBlock := tx.blockNumber } ∧
    (∀ i, i ≠ documentId → s'.documents i = s.documents i) := by
  simp only [updateDocumentBody] at h
  split at h
  · cases h
  · split at h
    · have hs := Except.ok.inj h
      subst hs
      refine ⟨rfl, rfl, rfl, rfl, rfl, rfl, rfl, by simp, ?_⟩
      intro i hi
      simp [hi]
    · cases h

theorem grantAccess_invalidGrantee (s : Vault) (tx : Tx) (documentId : Nat) :
    grantAccess s tx documentId 0 = .error .InvalidGrantee := by
  simp [grantAccess]

theorem grantAccess_notFound (s : Vault) (tx : Tx) (documentId g : Nat)
    (hg : g ≠ 0) (hex : (s.documents documentId).owner = 0) :
    grantAccess s tx documentId g = .error .NotFound := by
  simp [grantAccess, hg, hex]

theorem grantAccess_unauthorized (s : Vault) (tx : Tx) (documentId g : Nat)
    (hg : g ≠ 0) (hex : (s.documents documentId).owner ≠ 0)
    (ha : s.allowed (s.documents documentId).accessKey tx.sender = false) :
    grantAccess s tx documentId g = .error .Unauthorized := by
  simp [grantAccess, hg, hex, ha]

theorem grantAccess_ok_of (s : Vault) (tx : Tx) (documentId g : Nat)
    (hg : g ≠ 0) (hex : (s.documents documentId).owner ≠ 0)
    (ha : s.allowed (s.documents documentId).accessKey tx.sender = true) :
    ∃ s', grantAccess s tx documentId g = .ok s' := by
  simp only [grantAccess]
  rw [if_neg hg, if_neg hex, if_pos ha]
  exact ⟨_, rfl⟩

theorem grantAccess_ok_inv {s : Vault} {tx : Tx} {documentId g : Nat} {s' : Vault}
    (h : grantAccess s tx documentId g = .ok s') :
    s'.documents = s.documents ∧
    s'.nextId = s.nextId ∧
    s'.ownedDocuments = s.ownedDocuments ∧
    s'.allowedThis = s.allowedThis ∧
    s'.allowed = (fun h' a =>
      if h' = (s.documents documentId).accessKey ∧ a = g then true
      else s.allowed h' a) ∧
    s'.events = s.events ++ [.AccessGranted documentId g] ∧
    (s.isSharedWith documentId g = true →
      s'.sharedDocuments = s.sharedDocuments ∧ s'.isSharedWith = s.isSharedWith) ∧
    (s.isSharedWith documentId g = false →
      s'.sharedDocuments = (fun a =>
        if a = g then s.sharedDocuments g ++ [documentId]
        else s.sharedDocuments a) ∧
      s'.isSharedWith = (fun i a =>
        if i = documentId ∧ a = g then true else s.isSharedWith i a)) := by
  simp only [grantAccess] at h
  split at h
  · cases h
  · split at h
    · cases h
    · split at h
      · have hs := Except.ok.inj h
        subst hs
        by_cases hsh : s.isSharedWith documentId g
        · simp [hsh]
        · simp [hsh]
      · cases h

theorem createDocument_nameRequired (s : Vault) (tx : Tx) (body : String)
    (key : Nat) (pv : Bool) :
    createDocument s tx "" body key pv = .error .NameRequired := by
  simp [createDocument]

theorem createDocument_proofInvalid (s : Vault) (tx : Tx) (name body : String)
    (key : Nat) (hn : name ≠ "") :
    createDocument s tx name body key false = .error .ProofInvalid := by
  simp [createDocument, hn]

theorem createDocument_ok_of (s : Vault) (tx : Tx) (name body : String)
    (key : Nat) (hn : name ≠ "") :
    ∃ s', createDocument s tx name body key true = .ok (s', s.nextId) := by
  simp only [createDocument]
  rw [if_neg hn]
  exact ⟨_, rfl⟩

theorem createDocument_ok_inv {s : Vault} {tx : Tx} {name body : String}
    {key : Nat} {pv : Bool} {s' : Vault} {documentId : Nat}
    (h : createDocument s tx name body key pv = .ok (s', documentId)) :
    documentId = s.nextId ∧
    s'.nextId = s.nextId + 1 ∧
    s'.documents = (fun i =>
      if i = s.nextId then
        { owner := tx.sender, name := name, encryptedBody := body,
          accessKey := key, createdAt := tx.timestamp,
          updatedAt := tx.timestamp, lastEditorBlock := tx.blockNumber }
      else s.documents i) ∧
    s'.ownedDocuments = (fun a =>
      if a = tx.sender then s.ownedDocuments tx.sender ++ [s.nextId]
      else s.ownedDocuments a) ∧
    s'.sharedDocuments = s.sharedDocuments ∧
    s'.isSharedWith = s.isSharedWith ∧
    s'.allowed = (fun h' a =>
      if h' = key ∧ a = tx.sender then true else s.allowed h' a) ∧
    s'.events = s.events ++ [.DocumentCreated s.nextId tx.sender name] := by
  simp only [createDocument] at h
  split at h
  · cases h
  · split at h
    · cases h
    · have hs := Except.ok.inj h
      have h1 := congrArg Prod.fst hs
      have h2 := congrArg Prod.snd hs
      simp only at h1 h2
      subst h1
      subst h2
      exact ⟨rfl, rfl, rfl, rfl, rfl, rfl, rfl, rfl⟩

/-- C1: `updateDocumentBody` fails with `NotFound` when no document has the
given id; fails with `Unauthorized` when the document exists but the caller
does not currently hold decrypt permission on its access key; and when the
caller does hold permission it succeeds, replaces the stored body with the
new body, stamps `updatedAt` and `lastEditorBlock` from the current ledger
position (hence advances them, the ledger clock and block height being
non-decreasing), and emits a `DocumentUpdated` event carrying the document
id, the caller and the new body. -/
theorem updateDocumentBody_spec (s : Vault) (tx : Tx) (documentId : Nat)
    (newBody : String) :
    (documentExists s documentId = false →
        updateDocumentBody s tx documentId newBody = .error .NotFound) ∧
    (documentExists s documentId = true →
      s.allowed (s.documents documentId).accessKey tx.sender = false →
        updateDocumentBody s tx documentId newBody = .error .Unauthorized) ∧
    (documentExists s documentId = true →
      s.allowed (s.documents documentId).accessKey tx.sender = true →
        ∃ s', updateDocumentBody s tx documentId newBody = .ok s' ∧
          s'.documents documentId
            = { s.documents documentId with
                encryptedBody := newBody
                updatedAt := tx.timestamp
                lastEditorBlock := tx.blockNumber } ∧
          ((s.documents documentId).updatedAt ≤ tx.timestamp →
            (s.documents documentId).updatedAt
              ≤ (s'.documents documentId).updatedAt) ∧
          ((s.documents documentId).lastEditorBlock ≤ tx.blockNumber →
            (s.documents documentId).lastEditorBlock
              ≤ (s'.documents documentId).lastEditorBlock) ∧
          s'.events = s.events
            ++ [.DocumentUpdated documentId tx.sender newBody]) := by
  refine ⟨?_, ?_, ?_⟩
  · intro hex
    exact updateDocumentBody_notFound s tx documentId newBody
      ((documentExists_false_iff s documentId).mp hex)
  · intro hex ha
    exact updateDocumentBody_unauthorized s tx documentId newBody
      ((documentExists_true_iff s documentId).mp hex) ha
  · intro hex ha
    obtain ⟨s', hok⟩ := updateDocumentBody_ok_of s tx documentId newBody
      ((documentExists_true_iff s documentId).mp hex) ha
    have hinv := updateDocumentBody_ok_inv hok
    have hdoc := hinv.2.2.2.2.2.2.2.1
    refine ⟨s', hok, hdoc, ?_, ?_, hinv.2.2.2.2.2.2.1⟩
    · intro hle
      rw [hdoc]
      exact hle
    · intro hle
      rw [hdoc]
      exact hle

theorem updateDocumentBody_spec_witness :
    ∃ s', updateDocumentBody sampleVault ⟨5, 3, 4⟩ 1 "x" = .ok s' ∧
      s'.documents 1
        = { sampleVault.documents 1 with
            encryptedBody := "x"
            updatedAt := 3
            lastEditorBlock := 4 } ∧
      ((sampleVault.documents 1).updatedAt ≤ 3 →
        (sampleVault.documents 1).updatedAt ≤ (s'.documents 1).updatedAt) ∧
      ((sampleVault.documents 1).lastEditorBlock ≤ 4 →
        (sampleVault.documents 1).lastEditorBlock
          ≤ (s'.documents 1).lastEditorBlock) ∧
      s'.events = sampleVault.events ++ [.DocumentUpdated 1 5 "x"] :=
  (updateDocumentBody_spec sampleVault ⟨5, 3, 4⟩ 1 "x").2.2 (by decide) (by decide)

/-- C6: `grantAccess` with the null (zero-address) grantee always reverts
with `InvalidGrantee` and changes nothing; the grantee check is the first
`require`, so this failure takes precedence over `NotFound` and
`Unauthorized` for every state, document id and caller. -/
theorem grantAccess_null_grantee_spec (s : Vault) (tx : Tx) (documentId : Nat) :
    grantAccess s tx documentId 0 = .error .InvalidGrantee ∧
    stepVault s (.grant tx documentId 0) = (s, none) := by
  have h := grantAccess_invalidGrantee s tx documentId
  exact ⟨h, by simp [stepVault, h]⟩

/-- C7: `createDocument` with an empty name always reverts with
`NameRequired`, from any state and with any other arguments, and the failed
transaction changes nothing: the state is returned untouched — no record,
index entry or permission grant is retained — and `totalDocuments` is
unchanged. -/
theorem createDocument_empty_name_spec (s : Vault) (tx : Tx) (body : String)
    (key : Nat) (pv : Bool) :
    createDocument s tx "" body key pv = .error .NameRequired ∧
    stepVault s (.create tx "" body key pv) = (s, none) ∧
    totalDocuments (stepVault s (.create tx "" body key pv)).1
      = totalDocuments s := by
  have h := createDocument_nameRequired s tx body key pv
  exact ⟨h, by simp [stepVault, h], by simp [stepVault, h]⟩

/-- C8 (counterexample): two successive successful body updates carried by
transactions at the same ledger time (same block timestamp, here 5) leave
`updatedAt` equal at 5 — not strictly increased — refuting the claim that
every body mutation advances `updatedAt` to a strictly larger value. -/
theorem updatedAt_not_strictly_increasing_cex :
    ∃ s₁ s₂, updateDocumentBody sampleVault ⟨7, 5, 9⟩ 1 "a" = .ok s₁ ∧
      updateDocumentBody s₁ ⟨7, 5, 9⟩ 1 "b" = .ok s₂ ∧
      (s₁.documents 1).updatedAt = 5 ∧
      (s₂.documents 1).updatedAt = 5 :=
  ⟨_, _, rfl, rfl, rfl, rfl⟩

/-- C8 (amended): every successful body update stamps `updatedAt` with the
ledger time of its own transaction; across two successive successful updates
of the same document, `updatedAt` is therefore non-decreasing whenever
ledger time is non-decreasing, and strictly increases exactly when the
second update executes at a strictly later ledger time (two updates in the
same block leave it equal). -/
theorem updatedAt_tracks_ledger_time (s : Vault) (tx tx' : Tx)
    (documentId : Nat) (nb nb' : String) (s₁ s₂ : Vault)
    (h₁ : updateDocumentBody s tx documentId nb = .ok s₁)
    (h₂ : updateDocumentBody s₁ tx' documentId nb' = .ok s₂) :
    (s₁.documents documentId).updatedAt = tx.timestamp ∧
    (s₂.documents documentId).updatedAt = tx'.timestamp ∧
    (tx.timestamp ≤ tx'.timestamp →
      (s₁.documents documentId).updatedAt
        ≤ (s₂.documents documentId).updatedAt) ∧
    (tx.timestamp < tx'.timestamp →
      (s₁.documents documentId).updatedAt
        < (s₂.documents documentId).updatedAt) := by
  have ha := (updateDocumentBody_ok_inv h₁).2.2.2.2.2.2.2.1
  have hb := (updateDocumentBody_ok_inv h₂).2.2.2.2.2.2.2.1
  have e₁ : (s₁.documents documentId).updatedAt = tx.timestamp := by rw [ha]
  have e₂ : (s₂.documents documentId).updatedAt = tx'.timestamp := by rw [hb]
  refine ⟨e₁, e₂, ?_, ?_⟩
  · intro h
    rw [e₁, e₂]
    exact h
  · intro h
    rw [e₁, e₂]
    exact h

theorem updatedAt_tracks_ledger_time_witness :
    ∃ s₁ s₂, updateDocumentBody sampleVault ⟨7, 5, 9⟩ 1 "a" = .ok s₁ ∧
      updateDocumentBody s₁ ⟨7, 6, 10⟩ 1 "b" = .ok s₂ ∧
      (s₁.documents 1).updatedAt < (s₂.documents 1).updatedAt := by
  refine ⟨_, _, rfl, rfl, ?_⟩
  exact (updatedAt_tracks_ledger_time sampleVault ⟨7, 5, 9⟩ ⟨7, 6, 10⟩ 1
    "a" "b" _ _ rfl rfl).2.2.2 (by decide)

/-- C5: granting the same (document, grantee) pair twice — by callers holding
decrypt permission — appends the id to the grantee's share list only on the
first call (the `_isSharedWith` membership flag suppresses the second
append), so `getSharedDocumentIds` contains the id exactly once; the
engine-level permission grant (`FHE.allow`) and its `AccessGranted` event
still occur on every call. -/
theorem grantAccess_share_index_idempotent (s : Vault) (tx tx' : Tx)
    (documentId g : Nat) (hg : g ≠ 0)
    (hex : (s.documents documentId).owner ≠ 0)
    (ha : s.allowed (s.documents documentId).accessKey tx.sender = true)
    (ha' : s.allowed (s.documents documentId).accessKey tx'.sender = true)
    (hm : s.isSharedWith documentId g = false)
    (hn : documentId ∉ s.sharedDocuments g) :
    ∃ s₁ s₂, grantAccess s tx documentId g = .ok s₁ ∧
      grantAccess s₁ tx' documentId g = .ok s₂ ∧
      List.count documentId (getSharedDocumentIds s₂ g) = 1 ∧
      s₂.allowed (s.documents documentId).accessKey g = true ∧
      s₂.events = s.events
        ++ [.AccessGranted documentId g, .AccessGranted documentId g] := by
  obtain ⟨s₁, h₁⟩ := grantAccess_ok_of s tx documentId g hg hex ha
  have i₁ := grantAccess_ok_inv h₁
  have hdocs₁ : s₁.documents = s.documents := i₁.1
  have hall₁ := i₁.2.2.2.2.1
  have hsh₁ := i₁.2.2.2.2.2.2.2 hm
  have hex₂ : (s₁.documents documentId).owner ≠ 0 := by
    rw [hdocs₁]
    exact hex
  have ha₂ : s₁.allowed (s₁.documents documentId).accessKey tx'.sender = true := by
    rw [hdocs₁, hall₁]
    by_cases hqs : tx'.sender = g <;> simp [hqs, ha']
  obtain ⟨s₂, h₂⟩ := grantAccess_ok_of s₁ tx' documentId g hg hex₂ ha₂
  have i₂ := grantAccess_ok_inv h₂
  have hm₂ : s₁.isSharedWith documentId g = true := by
    rw [hsh₁.2]
    simp
  have hsh₂ := i₂.2.2.2.2.2.2.1 hm₂
  refine ⟨s₁, s₂, h₁, h₂, ?_, ?_, ?_⟩
  · have hlist : getSharedDocumentIds s₂ g = s.sharedDocuments g ++ [documentId] := by
      unfold getSharedDocumentIds
      rw [hsh₂.1, hsh₁.1]
      simp
    rw [hlist, List.count_append, List.count_eq_zero.mpr hn]
    simp
  · rw [i₂.2.2.2.2.1, hdocs₁]
    simp
  · rw [i₂.2.2.2.2.2.1, i₁.2.2.2.2.2.1]
    simp

theorem grantAccess_share_index_idempotent_witness :
    ∃ s₁ s₂, grantAccess sampleVault ⟨7, 3, 4⟩ 1 9 = .ok s₁ ∧
      grantAccess s₁ ⟨5, 3, 4⟩ 1 9 = .ok s₂ ∧
      List.count 1 (getSharedDocumentIds s₂ 9) = 1 ∧
      s₂.allowed (sampleVault.documents 1).accessKey 9 = true ∧
      s₂.events = sampleVault.events
        ++ [.AccessGranted 1 9, .AccessGranted 1 9] :=
  grantAccess_share_index_idempotent sampleVault ⟨7, 3, 4⟩ ⟨5, 3, 4⟩ 1 9
    (by decide) (by decide) (by decide) (by decide) (by decide) (by decide)

/-- C10: mutation is gated by current engine permission only, never by
ownership: any principal holding decrypt permission on a document's access
key — owner or not — can update its body and can grant access onward, so a
grantee can itself grant further principals; moreover a permitted principal
(in particular the owner) may be named as grantee of their own document,
after which the document id appears in both that principal's owned index and
shared index. -/
theorem permission_suffices_for_mutation (s : Vault) (documentId P Q : Nat)
    (txP txQ : Tx) (nb : String)
    (hex : documentExists s documentId = true)
    (hP : s.allowed (s.documents documentId).accessKey P = true)
    (hsP : txP.sender = P) (hsQ : txQ.sender = Q) (hQ : Q ≠ 0) :
    (∃ s', updateDocumentBody s txP documentId nb = .ok s') ∧
    (∃ s', grantAccess s txP documentId Q = .ok s' ∧
        s'.allowed (s.documents documentId).accessKey Q = true ∧
        ∀ R, R ≠ 0 → ∃ s'', grantAccess s' txQ documentId R = .ok s'') ∧
    (P ≠ 0 → documentId ∈ getOwnedDocumentIds s P →
      s.isSharedWith documentId P = false →
        ∃ s', grantAccess s txP documentId P = .ok s' ∧
          documentId ∈ getSharedDocumentIds s' P ∧
          documentId ∈ getOwnedDocumentIds s' P) := by
  have hex' := (documentExists_true_iff s documentId).mp hex
  have haP : s.allowed (s.documents documentId).accessKey txP.sender = true := by
    rw [hsP]
    exact hP
  refine ⟨?_, ?_, ?_⟩
  · exact updateDocumentBody_ok_of s txP documentId nb hex' haP
  · obtain ⟨s', h⟩ := grantAccess_ok_of s txP documentId Q hQ hex' haP
    have i := grantAccess_ok_inv h
    refine ⟨s', h, ?_, ?_⟩
    · rw [i.2.2.2.2.1]
      simp
    · intro R hR
      have hexR : (s'.documents documentId).owner ≠ 0 := by
        rw [i.1]
        exact hex'
      have haQ : s'.allowed (s'.documents documentId).accessKey txQ.sender = true := by
        rw [i.1, i.2.2.2.2.1, hsQ]
        simp
      exact grantAccess_ok_of s' txQ documentId R hR hexR haQ
  · intro hP0 hown hm
    obtain ⟨s', h⟩ := grantAccess_ok_of s txP documentId P hP0 hex' haP
    have i := grantAccess_ok_inv h
    have hsh := i.2.2.2.2.2.2.2 hm
    refine ⟨s', h, ?_, ?_⟩
    · unfold getSharedDocumentIds
      rw [hsh.1]
      simp
    · unfold getOwnedDocumentIds at hown ⊢
      rw [i.2.2.1]
      exact hown

theorem permission_suffices_for_mutation_witness :
    (∃ s', updateDocumentBody sampleVault ⟨7, 3, 4⟩ 1 "x" = .ok s') ∧
    (∃ s', grantAccess sampleVault ⟨7, 3, 4⟩ 1 9 = .ok s' ∧
        s'.allowed (sampleVault.documents 1).accessKey 9 = true ∧
        ∀ R, R ≠ 0 → ∃ s'', grantAccess s' ⟨9, 3, 4⟩ 1 R = .ok s'') ∧
    ((7 : Nat) ≠ 0 → 1 ∈ getOwnedDocumentIds sampleVault 7 →
      sampleVault.isSharedWith 1 7 = false →
        ∃ s', grantAccess sampleVault ⟨7, 3, 4⟩ 1 7 = .ok s' ∧
          1 ∈ getSharedDocumentIds s' 7 ∧
          1 ∈ getOwnedDocumentIds s' 7) :=
  permission_suffices_for_mutation sampleVault 1 7 9 ⟨7, 3, 4⟩ ⟨9, 3, 4⟩ "x"
    (by decide) (by decide) rfl rfl (by decide)

theorem stepVault_allocation_invariant (s : Vault) (op : VaultOp)
    (hinv : ∀ j, s.nextId ≤ j → (s.documents j).owner = 0) :
    ∀ j, (stepVault s op).1.nextId ≤ j →
      ((stepVault s op).1.documents j).owner = 0 := by
  cases op with
  | create tx name body key pv =>
      cases hc : createDocument s tx name body key pv with
      | error e =>
          have hstep : stepVault s (.create tx name body key pv) = (s, none) := by
            simp [stepVault, hc]
          rw [hstep]
          exact hinv
      | ok pr =>
          obtain ⟨s', did⟩ := pr
          have i := createDocument_ok_inv hc
          have hstep : stepVault s (.create tx name body key pv)
              = (s', some did) := by
            simp [stepVault, hc]
          rw [hstep]
          intro j hj
          simp only at hj
          have hj' : s.nextId + 1 ≤ j := by
            rw [← i.2.1]
            exact hj
          have hne : j ≠ s.nextId := by omega
          rw [i.2.2.1]
          simp only [hne, if_false]
          exact hinv j (by omega)
  | update tx did nb =>
      cases hu : updateDocumentBody s tx did nb with
      | error e =>
          have hstep : stepVault s (.update tx did nb) = (s, none) := by
            simp [stepVault, hu]
          rw [hstep]
          exact hinv
      | ok s' =>
          have i := updateDocumentBody_ok_inv hu
          have hstep : stepVault s (.update tx did nb) = (s', none) := by
            simp [stepVault, hu]
          rw [hstep]
          intro j hj
          simp only at hj
          have hj' : s.nextId ≤ j := by
            rw [← i.1]
            exact hj
          by_cases hjd : j = did
          · subst hjd
            rw [i.2.2.2.2.2.2.2.1]
            exact hinv j hj'
          · rw [i.2.2.2.2.2.2.2.2 j hjd]
            exact hinv j hj'
  | grant tx did g =>
      cases hgr : grantAccess s tx did g with
      | error e =>
          have hstep : stepVault s (.grant tx did g) = (s, none) := by
            simp [stepVault, hgr]
          rw [hstep]
          exact hinv
      | ok s' =>
          have i := grantAccess_ok_inv hgr
          have hstep : stepVault s (.grant tx did g) = (s', none) := by
            simp [stepVault, hgr]
          rw [hstep]
          intro j hj
          simp only at hj
          have hj' : s.nextId ≤ j := by
            rw [← i.2.1]
            exact hj
          rw [i.1]
          exact hinv j hj'

theorem runVault_allocation_invariant (ops : List VaultOp) :
    ∀ s : Vault, (∀ j, s.nextId ≤ j → (s.documents j).owner = 0) →
      ∀ j, (runVault s ops).nextId ≤ j →
        ((runVault s ops).documents j).owner = 0 := by
  induction ops with
  | nil =>
      intro s hinv
      exact hinv
  | cons op rest ih =>
      intro s hinv
      exact ih (stepVault s op).1 (stepVault_allocation_invariant s op hinv)

theorem initial_allocation_invariant (ops : List VaultOp) :
    ∀ j, (runVault initialVault ops).nextId ≤ j →
      ((runVault initialVault ops).documents j).owner = 0 :=
  runVault_allocation_invariant ops initialVault (fun _ _ => rfl)

/-- C4: the frame of every operation on every existing document: `owner`,
`name`, `accessKey` (the secret handle) and `createdAt` are never changed by
any later operation; an operation that is not a body update of document `id`
leaves `id`'s record entirely unchanged; a grant rewrites no document
record, owner index or id counter; and a body update rewrites no share
structure, owner index, engine permission or id counter.  (The hypothesis is
the allocation invariant — ids at or beyond `_nextId` are unassigned — which
`initial_allocation_invariant` proves for every reachable state.) -/
theorem document_fields_immutable_frame (s : Vault) (op : VaultOp)
    (hinv : ∀ j, s.nextId ≤ j → (s.documents j).owner = 0)
    (documentId : Nat) (hex : (s.documents documentId).owner ≠ 0) :
    ((stepVault s op).1.documents documentId).owner
        = (s.documents documentId).owner ∧
    ((stepVault s op).1.documents documentId).name
        = (s.documents documentId).name ∧
    ((stepVault s op).1.documents documentId).accessKey
        = (s.documents documentId).accessKey ∧
    ((stepVault s op).1.documents documentId).createdAt
        = (s.documents documentId).createdAt ∧
    (updateTarget op ≠ some documentId →
      (stepVault s op).1.documents documentId = s.documents documentId) ∧
    (∀ tx did g, op = .grant tx did g →
      (stepVault s op).1.documents = s.documents ∧
      (stepVault s op).1.ownedDocuments = s.ownedDocuments ∧
      (stepVault s op).1.nextId = s.nextId) ∧
    (∀ tx did nb, op = .update tx did nb →
      (stepVault s op).1.sharedDocuments = s.sharedDocuments ∧
      (stepVault s op).1.isSharedWith = s.isSharedWith ∧
      (stepVault s op).1.allowed = s.allowed ∧
      (stepVault s op).1.ownedDocuments = s.ownedDocuments ∧
      (stepVault s op).1.nextId = s.nextId) := by
  cases op with
  | create tx name body key pv =>
      cases hc : createDocument s tx name body key pv with
      | error e =>
          have hstep : stepVault s (.create tx name body key pv) = (s, none) := by
            simp [stepVault, hc]
          rw [hstep]
          refine ⟨rfl, rfl, rfl, rfl, fun _ => rfl, ?_, ?_⟩
          · intro tx' did g heq
            simp at heq
          · intro tx' did nb heq
            simp at heq
      | ok pr =>
          obtain ⟨s', did⟩ := pr
          have i := createDocument_ok_inv hc
          have hstep : stepVault s (.create tx name body key pv)
              = (s', some did) := by
            simp [stepVault, hc]
          rw [hstep]
          have hne : documentId ≠ s.nextId := by
            intro hcon
            apply hex
            rw [hcon]
            exact hinv s.nextId (Nat.le_refl _)
          have hdoc : s'.documents documentId = s.documents documentId := by
            rw [i.2.2.1]
            simp [hne]
          refine ⟨by rw [hdoc], by rw [hdoc], by rw [hdoc], by rw [hdoc],
            fun _ => hdoc, ?_, ?_⟩
          · intro tx' did' g heq
            simp at heq
          · intro tx' did' nb heq
            simp at heq
  | update tx did nb =>
      cases hu : updateDocumentBody s tx did nb with
      | error e =>
          have hstep : stepVault s (.update tx did nb) = (s, none) := by
            simp [stepVault, hu]
          rw [hstep]
          refine ⟨rfl, rfl, rfl, rfl, fun _ => rfl, ?_, ?_⟩
          · intro tx' did' g heq
            simp at heq
          · intro tx' did' nb' heq
            exact ⟨rfl, rfl, rfl, rfl, rfl⟩
      | ok s' =>
          have i := updateDocumentBody_ok_inv hu
          have hstep : stepVault s (.update tx did nb) = (s', none) := by
            simp [stepVault, hu]
          rw [hstep]
          have hframe : ∀ tx' did' nb', VaultOp.update tx did nb = .update tx' did' nb' →
              s'.sharedDocuments = s.sharedDocuments ∧
              s'.isSharedWith = s.isSharedWith ∧
              s'.allowed = s.allowed ∧
              s'.ownedDocuments = s.ownedDocuments ∧
              s'.nextId = s.nextId := by
            intro tx' did' nb' _
            exact ⟨i.2.2.1, i.2.2.2.1, i.2.2.2.2.1, i.2.1, i.1⟩
          by_cases hdid : documentId = did
          · subst hdid
            have hdoc := i.2.2.2.2.2.2.2.1
            refine ⟨by rw [hdoc], by rw [hdoc], by rw [hdoc], by rw [hdoc],
              ?_, ?_, hframe⟩
            · intro hne
              exact absurd rfl hne
            · intro tx' did' g heq
              simp at heq
          · have hdoc := i.2.2.2.2.2.2.2.2 documentId hdid
            refine ⟨by rw [hdoc], by rw [hdoc], by rw [hdoc], by rw [hdoc],
              fun _ => hdoc, ?_, hframe⟩
            intro tx' did' g heq
            simp at heq
  | grant tx did g =>
      cases hgr : grantAccess s tx did g with
      | error e =>
          have hstep : stepVault s (.grant tx did g) = (s, none) := by
            simp [stepVault, hgr]
          rw [hstep]
          refine ⟨rfl, rfl, rfl, rfl, fun _ => rfl, ?_, ?_⟩
          · intro tx' did' g' heq
            exact ⟨rfl, rfl, rfl⟩
          · intro tx' did' nb heq
            simp at heq
      | ok s' =>
          have i := grantAccess_ok_inv hgr
          have hstep : stepVault s (.grant tx did g) = (s', none) := by
            simp [stepVault, hgr]
          rw [hstep]
          have hdoc : s'.documents documentId = s.documents documentId := by
            rw [i.1]
          refine ⟨by rw [hdoc], by rw [hdoc], by rw [hdoc], by rw [hdoc],
            fun _ => hdoc, ?_, ?_⟩
          · intro tx' did' g' heq
            exact ⟨i.1, i.2.2.1, i.2.1⟩
          · intro tx' did' nb heq
            simp at heq

theorem document_fields_immutable_frame_witness :
    ((stepVault sampleVault (.grant ⟨7, 3, 4⟩ 1 9)).1.documents 1).owner
        = (sampleVault.documents 1).owner ∧
    ((stepVault sampleVault (.grant ⟨7, 3, 4⟩ 1 9)).1.documents 1).accessKey
        = (sampleVault.documents 1).accessKey ∧
    (stepVault sampleVault (.grant ⟨7, 3, 4⟩ 1 9)).1.nextId
        = sampleVault.nextId := by
  have hinv : ∀ j, sampleVault.nextId ≤ j → (sampleVault.documents j).owner = 0 := by
    intro j hj
    have hj1 : j ≠ 1 := by
      simp only [sampleVault] at hj
      omega
    simp [sampleVault, hj1, emptyDocument]
  have h := document_fields_immutable_frame sampleVault
    (.grant ⟨7, 3, 4⟩ 1 9) hinv 1 (by decide)
  exact ⟨h.1, h.2.2.1, (h.2.2.2.2.2.1 ⟨7, 3, 4⟩ 1 9 rfl).2.2⟩

theorem createdIds_nextId_characterization (ops : List VaultOp) :
    ∀ s : Vault,
      createdIds s ops
        = List.range' s.nextId (List.countP createSucceeds ops) ∧
      (runVault s ops).nextId = s.nextId + List.countP createSucceeds ops := by
  induction ops with
  | nil =>
      intro s
      simp [createdIds, runVault]
  | cons op rest ih =>
      intro s
      cases op with
      | create tx name body key pv =>
          by_cases hn : name = ""
          · subst hn
            have hc := createDocument_nameRequired s tx body key pv
            have hstep : stepVault s (.create tx "" body key pv) = (s, none) := by
              simp [stepVault, hc]
            have hcount : List.countP createSucceeds
                  (VaultOp.create tx "" body key pv :: rest)
                = List.countP createSucceeds rest := by
              rw [List.countP_cons]
              simp [createSucceeds]
            refine ⟨?_, ?_⟩
            · rw [hcount]
              simp only [createdIds, hstep]
              exact (ih s).1
            · rw [hcount]
              simp only [runVault, hstep]
              exact (ih s).2
          · cases pv with
            | false =>
                have hc := createDocument_proofInvalid s tx name body key hn
                have hstep : stepVault s (.create tx name body key false)
                    = (s, none) := by
                  simp [stepVault, hc]
                have hcount : List.countP createSucceeds
                      (VaultOp.create tx name body key false :: rest)
                    = List.countP createSucceeds rest := by
                  rw [List.countP_cons]
                  simp [createSucceeds]
                refine ⟨?_, ?_⟩
                · rw [hcount]
                  simp only [createdIds, hstep]
                  exact (ih s).1
                · rw [hcount]
                  simp only [runVault, hstep]
                  exact (ih s).2
            | true =>
                obtain ⟨s', hc⟩ := createDocument_ok_of s tx name body key hn
                have i := createDocument_ok_inv hc
                have hstep : stepVault s (.create tx name body key true)
                    = (s', some s.nextId) := by
                  simp [stepVault, hc]
                have hcount : List.countP createSucceeds
                      (VaultOp.create tx name body key true :: rest)
                    = List.countP createSucceeds rest + 1 := by
                  rw [List.countP_cons]
                  simp [createSucceeds, hn]
                refine ⟨?_, ?_⟩
                · rw [hcount, List.range'_succ]
                  simp only [createdIds, hstep]
                  rw [(ih s').1, i.2.1]
                · rw [hcount]
                  simp only [runVault, hstep]
                  rw [(ih s').2, i.2.1]
                  omega
      | update tx did nb =>
          have hstep : ((stepVault s (.update tx did nb)).1.nextId = s.nextId) ∧
              (stepVault s (.update tx did nb)).2 = none ∧
              stepVault s (.update tx did nb)
                = ((stepVault s (.update tx did nb)).1, none) := by
            cases hu : updateDocumentBody s tx did nb with
            | error e => simp [stepVault, hu]
            | ok s' =>
                have hnext := (updateDocumentBody_ok_inv hu).1
                simp [stepVault, hu, hnext]
          have hcount : List.countP createSucceeds (VaultOp.update tx did nb :: rest)
              = List.countP createSucceeds rest := by
            rw [List.countP_cons]
            simp [createSucceeds]
          refine ⟨?_, ?_⟩
          · rw [hcount]
            simp only [createdIds, hstep.2.1]
            rw [(ih ((stepVault s (.update tx did nb)).1)).1, hstep.1]
          · rw [hcount]
            simp only [runVault]
            rw [(ih ((stepVault s (.update tx did nb)).1)).2, hstep.1]
      | grant tx did g =>
          have hstep : ((stepVault s (.grant tx did g)).1.nextId = s.nextId) ∧
              (stepVault s (.grant tx did g)).2 = none := by
            cases hgr : grantAccess s tx did g with
            | error e => simp [stepVault, hgr]
            | ok s' =>
                have hnext := (grantAccess_ok_inv hgr).2.1
                simp [stepVault, hgr, hnext]
          have hcount : List.countP createSucceeds (VaultOp.grant tx did g :: rest)
              = List.countP createSucceeds rest := by
            rw [List.countP_cons]
            simp [createSucceeds]
          refine ⟨?_, ?_⟩
          · rw [hcount]
            simp only [createdIds, hstep.2]
            rw [(ih ((stepVault s (.grant tx did g)).1)).1, hstep.1]
          · rw [hcount]
            simp only [runVault]
            rw [(ih ((stepVault s (.grant tx did g)).1)).2, hstep.1]

/-- C3: document ids come from the single counter `_nextId` starting at 1:
over every transaction sequence from deployment, the ids returned by
successful creations are exactly `1..n` in creation order — each strictly
greater than all earlier ones, none reused (failed attempts revert without
consuming an id, so there are no gaps), id 0 never assigned — and
`totalDocuments` equals the number `n` of successful creations. -/
theorem document_ids_from_single_counter (ops : List VaultOp) :
    createdIds initialVault ops
      = List.range' 1 (createdIds initialVault ops).length ∧
    totalDocuments (runVault initialVault ops)
      = (createdIds initialVault ops).length ∧
    List.Pairwise (· < ·) (createdIds initialVault ops) ∧
    (createdIds initialVault ops).Nodup ∧
    0 ∉ createdIds initialVault ops := by
  have h := createdIds_nextId_characterization ops initialVault
  have hlen : (createdIds initialVault ops).length
      = List.countP createSucceeds ops := by
    rw [h.1]
    simp
  refine ⟨?_, ?_, ?_, ?_, ?_⟩
  · rw [hlen]
    exact h.1
  · rw [hlen]
    simp only [totalDocuments, h.2]
    show 1 + List.countP createSucceeds ops - 1 = List.countP createSucceeds ops
    omega
  · rw [h.1, ← hlen]
    exact List.pairwise_lt_range' 1 (createdIds initialVault ops).length
  · rw [h.1, ← hlen]
    exact List.nodup_range' 1 (createdIds initialVault ops).length
  · rw [h.1]
    intro hmem
    rw [List.mem_range'] at hmem
    obtain ⟨i, hi, heq⟩ := hmem
    have hone : initialVault.nextId = 1 := rfl
    omega

end ObscureBase
